import Mathlib

/-!
Verification of `src/include/htable.h` (libkern): an intrusive chained hash
table with a bloom-filter prefilter.

Modelling conventions for the shallow embedding:

* A C `(void *key, size_t len)` pair denotes the `len` bytes the pointer
  addresses; it is modelled as a single `List Nat` of exactly those bytes
  (`len` is the list's length).  `INIT_HTABLE_ENTRY` stores both fields, so
  the entry keeps a separate `len` field mirroring the struct.
* Machine integers are `Nat` with explicit reductions (`% 2^32` in the hash,
  bit operations written exactly as in the C macros).
* An intrusive `struct hlist_node` chain is a `List HEntry`; head insertion
  is `cons`, unlinking is removal from the list.  Entry identity (a node's
  address in C) is modelled by the `eid` field; the instrumented semantics
  (`stepOp`) assigns strictly increasing `eid`s, so a larger `eid` means a
  more recently inserted entry.
* The C truthiness of `bloom_test` (a masked byte used in an `if`) becomes a
  `Bool` that is true exactly when the masked byte is nonzero.
-/

/-- Modelled from the spec: the 32-bit hash function `jhash` lives in
`jhash.h`, which is not part of the provided source.  Per the spec (§4.1) the
contract is `hash(key_bytes, length, seed) -> uint32`, deterministic in the
byte content and length only, and "any engineering-grade 32-bit
non-cryptographic mixing hash (e.g., a Jenkins-style one-at-a-time hash)
satisfies the contract".  We use a Jenkins-style one-at-a-time hash reduced
mod 2^32. -/
def jhash (key : List Nat) (seed : Nat) : Nat :=
  let body := key.foldl
    (fun h b =>
      let h1 := (h + b) % 2 ^ 32
      let h2 := (h1 + (h1 <<< 10)) % 2 ^ 32
      h2 ^^^ (h2 >>> 6))
    seed
  let f1 := (body + (body <<< 3)) % 2 ^ 32
  let f2 := f1 ^^^ (f1 >>> 11)
  (f2 + (f2 <<< 15)) % 2 ^ 32

/-- `#define BLOOM_BIT_LENGTH 8` -/
def BLOOM_BIT_LENGTH : Nat := 8

/-- `#define BITS_PER_BYTE 8` (from `kernel.h`, used by the bloom macros). -/
def BITS_PER_BYTE : Nat := 8

/-- The bloom bit vector as allocated by `bloom_init`:
`(1 << BLOOM_BIT_LENGTH) / BITS_PER_BYTE = 32` zero bytes. -/
def bloom_init : List Nat := List.replicate ((1 <<< BLOOM_BIT_LENGTH) / BITS_PER_BYTE) 0

/-- `bloom_set_bit(bits, idx)`: `bits[idx / 8] |= 1 << (idx % 8)`. -/
def bloom_set_bit (bits : List Nat) (idx : Nat) : List Nat :=
  bits.set (idx / BITS_PER_BYTE)
    (bits.getD (idx / BITS_PER_BYTE) 0 ||| (1 <<< (idx % BITS_PER_BYTE)))

/-- `bloom_test_bit(bits, idx)`: `bits[idx / 8] & (1 << (idx % 8))`,
as the truth value the C `if` extracts from it. -/
def bloom_test_bit (bits : List Nat) (idx : Nat) : Bool :=
  bits.getD (idx / BITS_PER_BYTE) 0 &&& (1 <<< (idx % BITS_PER_BYTE)) ≠ 0

/-- `bloom_set(bitvect, hash)`: set the bit indexed by
`hash & ((1 << BLOOM_BIT_LENGTH) - 1)`. -/
def bloom_set (bitvect : List Nat) (hash : Nat) : List Nat :=
  bloom_set_bit bitvect (hash &&& ((1 <<< BLOOM_BIT_LENGTH) - 1))

/-- `bloom_test(bitvect, hash)`: test the bit indexed by
`hash & ((1 << BLOOM_BIT_LENGTH) - 1)`. -/
def bloom_test (bitvect : List Nat) (hash : Nat) : Bool :=
  bloom_test_bit bitvect (hash &&& ((1 <<< BLOOM_BIT_LENGTH) - 1))

/-- `#define HASH_NUM_BUCKETS 16` -/
def HASH_NUM_BUCKETS : Nat := 16

/-- `#define HASH_BUCKET_THRESH 10` -/
def HASH_BUCKET_THRESH : Nat := 10

/-- `struct htable_entry`.  `eid` models the node's identity (its address in
C, and under the instrumented semantics its insertion timestamp); `key`/`len`
mirror the struct's key pointer and length fields; `hash` mirrors the
`unsigned hash` field ("Result of hash function applied to key"). -/
structure HEntry where
  eid : Nat
  key : List Nat
  len : Nat
  hash : Nat
deriving DecidableEq, Repr

/-- `struct htable`: bucket array (`bucks`), bucket count (`size`), number of
linked entries (`count`), bloom bit vector (`bitvect`).  Each bucket is the
chain hanging off its `hlist_head`, first element = head. -/
structure Htable where
  bucks : List (List HEntry)
  size : Nat
  count : Nat
  bitvect : List Nat
deriving DecidableEq, Repr

/-- `#define htable_which_bucket(table, hash) ((hash) & ((table)->size - 1))` -/
def htable_which_bucket (table : Htable) (hash : Nat) : Nat :=
  hash &&& (table.size - 1)

/-- `INIT_HTABLE_ENTRY(entry, key, len)`: initializes the list node and sets
`entry->key` and `entry->len`.  It does not touch `entry->hash`. -/
def INIT_HTABLE_ENTRY (entry : HEntry) (key : List Nat) : HEntry :=
  { entry with key := key, len := key.length }

/-- The table `htable_init` builds: `HASH_NUM_BUCKETS` empty buckets,
`count = 0`, zeroed bloom vector. -/
def htable_init_table : Htable :=
  { bucks := List.replicate HASH_NUM_BUCKETS []
    size := HASH_NUM_BUCKETS
    count := 0
    bitvect := bloom_init }

/-- `htable_init(table)`: `-1` on a null table (no initialization performed),
else initializes the pointed-to table and returns `0`. -/
def htable_init (table : Option Htable) : Int × Option Htable :=
  match table with
  | none => (-1, none)
  | some _ => (0, some htable_init_table)

/-- The table `htable_init_n` builds: `n` buckets when `n > 0`, else
`HASH_BUCKET_THRESH` buckets. -/
def htable_init_n_table (n : Nat) : Htable :=
  let sz := if n > 0 then n else HASH_BUCKET_THRESH
  { bucks := List.replicate sz []
    size := sz
    count := 0
    bitvect := bloom_init }

/-- `htable_init_n(table, n)`: `-1` on a null table (no initialization
performed), else initializes the pointed-to table and returns `0`. -/
def htable_init_n (table : Option Htable) (n : Nat) : Int × Option Htable :=
  match table with
  | none => (-1, none)
  | some _ => (0, some (htable_init_n_table n))

/-- `htable_add(table, entry, key, len)`: runs `INIT_HTABLE_ENTRY`, computes
`hash = jhash(key, len, 0)` and `buck = htable_which_bucket(table, hash)`,
prepends the entry to bucket `buck` (`hlist_add_head`), sets the bloom bit
(`bloom_set`), and increments `count`.  The locally computed `hash` is never
stored into `entry->hash`. -/
def htable_add (table : Htable) (entry : HEntry) (key : List Nat) : Htable :=
  let e := INIT_HTABLE_ENTRY entry key
  let hash := jhash key 0
  let buck := htable_which_bucket table hash
  { table with
      bucks := table.bucks.set buck (e :: table.bucks.getD buck [])
      bitvect := bloom_set table.bitvect hash
      count := table.count + 1 }

/-- The match test of `htable_find`'s scan loop:
`e->len == len && memcmp(e->key, key, len) == 0`. -/
def matchKey (e : HEntry) (key : List Nat) : Bool :=
  e.len == key.length && e.key == key

/-- `htable_find(h, key, len)`: computes `hash` and `buck`; if the bloom test
fails, returns `NULL` without scanning; otherwise (and when the bucket is
nonempty) scans bucket `buck` in chain order and returns the first entry
whose length and bytes match, else `NULL`. -/
def htable_find (h : Htable) (key : List Nat) : Option HEntry :=
  let hash := jhash key 0
  let buck := htable_which_bucket h hash
  if bloom_test h.bitvect hash then
    let chain := h.bucks.getD buck []
    if chain.isEmpty then none
    else chain.find? (fun e => matchKey e key)
  else none

/-- `htable_del_key(table, key, len)`: `htable_find`, and when an entry is
found, `hlist_del_init` unlinks it — the first chain match — and `count` is
decremented; returns the removed entry or `NULL`, paired with the resulting
table. -/
def htable_del_key (table : Htable) (key : List Nat) : Option HEntry × Htable :=
  match htable_find table key with
  | some e =>
      let buck := htable_which_bucket table (jhash key 0)
      (some e,
        { table with
            bucks := table.bucks.set buck
              ((table.bucks.getD buck []).eraseP (fun x => matchKey x key))
            count := table.count - 1 })
  | none => (none, table)

/-- `htable_del_entry(table, entry)`: delegates to
`htable_del_key(table, entry->key, entry->len)`. -/
def htable_del_entry (table : Htable) (entry : HEntry) : Option HEntry × Htable :=
  htable_del_key table entry.key

/-- The `htable_for_each(pos, table)` traversal: for `i` in `0..size-1`, walk
bucket `i`'s chain from its head following `next` pointers; the list of
entries visited, in visiting order. -/
def htable_for_each (table : Htable) : List HEntry :=
  (List.range table.size).flatMap (fun i => table.bucks.getD i [])

/-- The entries currently linked into the table (all bucket chains,
concatenated in bucket order). -/
def iterAll (t : Htable) : List HEntry := t.bucks.flatten

/-- Written from the spec's words for the refinement claim C2: a plain scan
of bucket `hash(k) & (size-1)` with no bloom gate. -/
def findPlainScan (h : Htable) (key : List Nat) : Option HEntry :=
  (h.bucks.getD (htable_which_bucket h (jhash key 0)) []).find?
    (fun e => matchKey e key)

/-- Structural well-formedness every C `struct htable` produced by the
constructors has: the bucket array has `size` elements, the bloom vector has
its 32 allocated bytes, and there is at least one bucket. -/
def HtableWF (t : Htable) : Prop :=
  t.bucks.length = t.size ∧ t.bitvect.length = 32 ∧ 0 < t.size

/-- An entry not linked into any bucket of `t`. -/
def Unlinked (e : HEntry) (t : Htable) : Prop :=
  ∀ b ∈ t.bucks, e ∉ b

/-- Instrumented system state: the table plus a tick counter supplying fresh
entry identities (`eid`) in insertion order. -/
structure Sys where
  tab : Htable
  tick : Nat
deriving Repr

/-- The operations of the table's API that a caller can issue. -/
inductive Op where
  | add (key : List Nat)
  | del (key : List Nat)
  | find (key : List Nat)
deriving DecidableEq, Repr

/-- One API call.  `add` inserts a caller-provided fresh entry (identity =
current tick; its `key`, `len`, `hash` fields are dead on arrival, since
`INIT_HTABLE_ENTRY` overwrites `key`/`len` and nothing writes `hash`).
`del` is `htable_del_key`.  `find` is pure and leaves the table unchanged. -/
def stepOp (s : Sys) : Op → Sys
  | Op.add k => ⟨htable_add s.tab ⟨s.tick, [], 0, 0⟩ k, s.tick + 1⟩
  | Op.del k => ⟨(htable_del_key s.tab k).2, s.tick⟩
  | Op.find _ => s

/-- Run a sequence of API calls. -/
def runOps (s : Sys) (ops : List Op) : Sys :=
  ops.foldl stepOp s

/-- Initial state from `htable_init`. -/
def initSys : Sys := ⟨htable_init_table, 0⟩

/-- Initial state from `htable_init_n n`. -/
def initSysN (n : Nat) : Sys := ⟨htable_init_n_table n, 0⟩

/-- States reachable from an initialized table by a sequence of
insert/delete/find calls. -/
inductive Reached : Sys → Prop
  | base : Reached initSys
  | baseN (n : Nat) : Reached (initSysN n)
  | step (s : Sys) (op : Op) : Reached s → Reached (stepOp s op)

/-- The inductive invariant of reachable states.  `eid`s act as insertion
timestamps: every linked entry was inserted at tick `eid`, ticks grow, so
"more recently inserted" = "larger `eid`". -/
structure SysInv (s : Sys) : Prop where
  hlen : s.tab.bucks.length = s.tab.size
  hbv : s.tab.bitvect.length = 32
  hpos : 0 < s.tab.size
  hcount : s.tab.count = (iterAll s.tab).length
  hbloom : ∀ e ∈ iterAll s.tab, bloom_test s.tab.bitvect (jhash e.key 0) = true
  hplace : ∀ j, j < s.tab.bucks.length → ∀ e ∈ s.tab.bucks.getD j [],
    j = jhash e.key 0 &&& (s.tab.size - 1)
  hlenkey : ∀ e ∈ iterAll s.tab, e.len = e.key.length
  hsorted : ∀ b ∈ s.tab.bucks, List.Pairwise (fun a c => c.eid < a.eid) b
  htick : ∀ e ∈ iterAll s.tab, e.eid < s.tick
  hnodup : ((iterAll s.tab).map (fun e => e.eid)).Nodup

/-! ## Basic bit-vector lemmas -/

theorem and_shiftLeft_ne_zero_iff (b i : Nat) :
    (b &&& (1 <<< i) ≠ 0) ↔ b.testBit i = true := by
  have h2 : (1 <<< i : Nat) = 2 ^ i := by rw [Nat.shiftLeft_eq, Nat.one_mul]
  rw [h2]
  constructor
  · intro hne
    by_contra hb
    apply hne
    apply Nat.eq_of_testBit_eq
    intro j
    rw [Nat.testBit_and, Nat.zero_testBit, Nat.testBit_two_pow]
    rcases eq_or_ne i j with rfl | hij
    · simp only [Bool.and_eq_false_iff]
      left
      exact eq_false_of_ne_true hb
    · simp [hij]
  · intro ht h0
    have hbit : (b &&& 2 ^ i).testBit i = true := by
      rw [Nat.testBit_and, ht, Nat.testBit_two_pow_self]
      rfl
    rw [h0, Nat.zero_testBit] at hbit
    exact Bool.false_ne_true hbit

theorem bloom_test_true_iff (bv : List Nat) (h : Nat) :
    bloom_test bv h = true ↔
      (bv.getD ((h &&& 255) / 8) 0).testBit ((h &&& 255) % 8) = true := by
  have hmask : ((1 <<< BLOOM_BIT_LENGTH) - 1 : Nat) = 255 := by decide
  simp only [bloom_test, bloom_test_bit, BITS_PER_BYTE, hmask, decide_eq_true_eq]
  exact and_shiftLeft_ne_zero_iff _ _

theorem bloom_set_length (bv : List Nat) (h : Nat) :
    (bloom_set bv h).length = bv.length := by
  simp [bloom_set, bloom_set_bit]

theorem getD_set_self {α : Type} (l : List α) (i : Nat) (v d : α) (h : i < l.length) :
    (l.set i v).getD i d = v := by
  rw [List.getD_eq_getElem _ _ (by simpa using h)]
  exact List.getElem_set_self _

theorem getD_set_ne {α : Type} (l : List α) (i j : Nat) (v d : α) (h : i ≠ j) :
    (l.set i v).getD j d = l.getD j d := by
  rw [List.getD_eq_getElem?_getD, List.getElem?_set_ne h, ← List.getD_eq_getElem?_getD]

theorem bloom_set_getD_or (bv : List Nat) (h i : Nat) :
    ∃ m : Nat, (bloom_set bv h).getD i 0 = bv.getD i 0 ||| m := by
  unfold bloom_set bloom_set_bit
  by_cases hij : (h &&& ((1 <<< BLOOM_BIT_LENGTH) - 1)) / BITS_PER_BYTE = i
  · rw [hij]
    by_cases hlen : i < bv.length
    · exact ⟨_, getD_set_self bv i _ _ hlen⟩
    · rw [List.set_eq_of_length_le (Nat.le_of_not_lt hlen)]
      exact ⟨0, (Nat.or_zero _).symm⟩
  · rw [getD_set_ne bv _ i _ _ hij]
    exact ⟨0, (Nat.or_zero _).symm⟩

theorem bloom_set_mono (bv : List Nat) (h h' : Nat)
    (ht : bloom_test bv h = true) : bloom_test (bloom_set bv h') h = true := by
  rw [bloom_test_true_iff] at ht ⊢
  obtain ⟨m, hm⟩ := bloom_set_getD_or bv h' ((h &&& 255) / 8)
  rw [hm, Nat.testBit_or, ht]
  rfl

theorem bloom_set_test_self (bv : List Nat) (h : Nat) (hlen : 32 ≤ bv.length) :
    bloom_test (bloom_set bv h) h = true := by
  rw [bloom_test_true_iff]
  have hmask : ((1 <<< BLOOM_BIT_LENGTH) - 1 : Nat) = 255 := by decide
  have hidx : (h &&& 255) / 8 < bv.length := by
    have h1 : h &&& 255 ≤ 255 := Nat.and_le_right
    have h2 : (h &&& 255) / 8 ≤ 255 / 8 := Nat.div_le_div_right h1
    omega
  unfold bloom_set bloom_set_bit
  simp only [BITS_PER_BYTE, hmask]
  rw [getD_set_self _ _ _ _ hidx, Nat.testBit_or]
  have : (1 <<< ((h &&& 255) % 8) : Nat).testBit ((h &&& 255) % 8) = true := by
    rw [Nat.shiftLeft_eq, Nat.one_mul]
    exact Nat.testBit_two_pow_self
  rw [this, Bool.or_true]

/-! ## List and permutation helpers -/

theorem flatten_replicate_nil {α : Type} (n : Nat) :
    (List.replicate n ([] : List α)).flatten = [] := by
  induction n with
  | zero => rfl
  | succ m ih => simp [List.replicate_succ, ih]

theorem flatten_set_cons_perm {α : Type} (l : List (List α)) (j : Nat) (a : α)
    (hj : j < l.length) :
    ((l.set j (a :: l.getD j [])).flatten).Perm (a :: l.flatten) := by
  induction l generalizing j with
  | nil => simp at hj
  | cons b rest ih =>
      cases j with
      | zero =>
          simp only [List.getD_cons_zero, List.set_cons_zero, List.flatten_cons]
          exact List.Perm.refl _
      | succ i =>
          simp only [List.getD_cons_succ, List.set_cons_succ, List.flatten_cons]
          have hi : i < rest.length := by simpa using hj
          have h1 : (b ++ (rest.set i (a :: rest.getD i [])).flatten).Perm
              (b ++ (a :: rest.flatten)) := (ih i hi).append_left b
          exact h1.trans List.perm_middle

theorem flatten_set_perm_of {α : Type} (l : List (List α)) (j : Nat) (c : List α) (e : α)
    (h : (e :: c).Perm (l.getD j [])) :
    (e :: (l.set j c).flatten).Perm l.flatten := by
  induction l generalizing j with
  | nil =>
      have hlen := h.length_eq
      simp at hlen
  | cons b rest ih =>
      cases j with
      | zero =>
          simp only [List.getD_cons_zero] at h
          simp only [List.set_cons_zero, List.flatten_cons]
          have h1 : ((e :: c) ++ rest.flatten).Perm (b ++ rest.flatten) :=
            h.append_right _
          simpa using h1
      | succ i =>
          simp only [List.getD_cons_succ] at h
          simp only [List.set_cons_succ, List.flatten_cons]
          have h2 : (b ++ (e :: (rest.set i c).flatten)).Perm (b ++ rest.flatten) :=
            (ih i h).append_left b
          exact List.perm_middle.symm.trans h2

theorem find?_append_cons {α : Type} (p : α → Bool) (l₁ l₂ : List α) (a : α)
    (h1 : ∀ b ∈ l₁, ¬ p b = true) (h2 : p a = true) :
    (l₁ ++ a :: l₂).find? p = some a := by
  induction l₁ with
  | nil => simp [List.find?_cons, h2]
  | cons x xs ih =>
      have hx : p x = false := by
        rw [← Bool.not_eq_true]
        exact h1 x (by simp)
      simp only [List.cons_append, List.find?_cons, hx]
      exact ih (fun b hb => h1 b (by simp [hb]))

theorem cons_eraseP_perm {α : Type} (p : α → Bool) (l : List α) (e : α)
    (h : l.find? p = some e) : (e :: l.eraseP p).Perm l := by
  have he : e ∈ l := List.mem_of_find?_eq_some h
  have hp : p e = true := List.find?_some h
  obtain ⟨a, l₁, l₂, hno, hpa, hl, herase⟩ := List.exists_of_eraseP he hp
  have hfind : l.find? p = some a := by
    rw [hl]
    exact find?_append_cons p l₁ l₂ a hno hpa
  rw [h] at hfind
  obtain rfl : e = a := Option.some.inj hfind
  rw [herase, hl]
  exact List.perm_middle.symm

theorem find?_pairwise_first {α : Type} (R : α → α → Prop) (p : α → Bool) (l : List α)
    (e : α) (hp : List.Pairwise R l) (hf : l.find? p = some e) :
    ∀ x ∈ l, p x = true → x = e ∨ R e x := by
  induction l with
  | nil => simp at hf
  | cons a rest ih =>
      obtain ⟨ha, hrest⟩ := List.pairwise_cons.mp hp
      rcases hpa : p a with _ | _
      · have hf' : rest.find? p = some e := by
          simpa [List.find?_cons, hpa] using hf
        intro x hx hpx
        rcases List.mem_cons.mp hx with rfl | hx'
        · rw [hpa] at hpx
          exact absurd hpx (by simp)
        · exact ih hrest hf' x hx' hpx
      · have hae : some a = some e := by
          simpa [List.find?_cons, hpa] using hf
        obtain rfl : a = e := Option.some.inj hae
        intro x hx hpx
        rcases List.mem_cons.mp hx with rfl | hx'
        · exact Or.inl rfl
        · exact Or.inr (ha x hx')

/-! ## The inductive invariant -/

theorem bucket_lt (t : Htable) (hpos : 0 < t.size) (hlen : t.bucks.length = t.size)
    (h : Nat) : htable_which_bucket t h < t.bucks.length := by
  have h1 : h &&& (t.size - 1) ≤ t.size - 1 := Nat.and_le_right
  unfold htable_which_bucket
  omega

theorem getD_bucks (t : Htable) (j : Nat) (hj : j < t.bucks.length) :
    t.bucks.getD j [] = t.bucks[j] := List.getD_eq_getElem _ _ hj

theorem chain_mem_iterAll (t : Htable) (j : Nat) (hj : j < t.bucks.length) :
    ∀ x ∈ t.bucks.getD j [], x ∈ iterAll t := by
  intro x hx
  rw [getD_bucks t j hj] at hx
  exact List.mem_flatten.mpr ⟨t.bucks[j], List.getElem_mem hj, hx⟩

theorem find_some_elim (t : Htable) (k : List Nat) (e : HEntry)
    (h : htable_find t k = some e) :
    (t.bucks.getD (htable_which_bucket t (jhash k 0)) []).find?
      (fun x => matchKey x k) = some e := by
  simp only [htable_find] at h
  split at h
  · split at h
    · exact absurd h (by simp)
    · exact h
  · exact absurd h (by simp)

theorem inv_fresh (t : Htable) (sz : Nat) (hsz : 0 < sz)
    (hb : t.bucks = List.replicate sz []) (hs : t.size = sz) (hc : t.count = 0)
    (hv : t.bitvect = bloom_init) : SysInv ⟨t, 0⟩ := by
  have hiter : iterAll t = [] := by
    simp only [iterAll, hb]
    exact flatten_replicate_nil sz
  refine ⟨?_, ?_, ?_, ?_, ?_, ?_, ?_, ?_, ?_, ?_⟩
  · rw [hb, hs]
    simp
  · rw [hv]
    decide
  · show 0 < t.size
    omega
  · show t.count = (iterAll t).length
    rw [hiter, hc]
    rfl
  · show ∀ e ∈ iterAll t, _
    rw [hiter]
    intro e he
    simp at he
  · intro j hj e he
    rw [hb, List.length_replicate] at hj
    rw [hb, List.getD_eq_getElem _ _ (by simpa using hj), List.getElem_replicate] at he
    simp at he
  · show ∀ e ∈ iterAll t, _
    rw [hiter]
    intro e he
    simp at he
  · intro b hb2
    rw [hb] at hb2
    rw [List.eq_of_mem_replicate hb2]
    exact List.Pairwise.nil
  · show ∀ e ∈ iterAll t, _
    rw [hiter]
    intro e he
    simp at he
  · show ((iterAll t).map _).Nodup
    rw [hiter]
    exact List.nodup_nil

theorem inv_add (t : Htable) (n : Nat) (k : List Nat) (inv : SysInv ⟨t, n⟩) :
    SysInv ⟨htable_add t ⟨n, [], 0, 0⟩ k, n + 1⟩ := by
  obtain ⟨hlen, hbv, hpos, hcount, hbloom, hplace, hlenkey, hsorted, htick, hnodup⟩ := inv
  dsimp only at hlen hbv hpos hcount hbloom hplace hlenkey hsorted htick hnodup
  simp only [iterAll] at hcount hbloom hlenkey htick hnodup
  have hj : htable_which_bucket t (jhash k 0) < t.bucks.length :=
    bucket_lt t hpos hlen (jhash k 0)
  have hbeq : (htable_add t ⟨n, [], 0, 0⟩ k).bucks
      = t.bucks.set (htable_which_bucket t (jhash k 0))
        ((⟨n, k, k.length, 0⟩ : HEntry)
          :: t.bucks.getD (htable_which_bucket t (jhash k 0)) []) := rfl
  have P : ((htable_add t ⟨n, [], 0, 0⟩ k).bucks.flatten).Perm
      ((⟨n, k, k.length, 0⟩ : HEntry) :: t.bucks.flatten) := by
    rw [hbeq]
    exact flatten_set_cons_perm t.bucks _ _ hj
  have hmem : ∀ x : HEntry, x ∈ (htable_add t ⟨n, [], 0, 0⟩ k).bucks.flatten ↔
      x = ⟨n, k, k.length, 0⟩ ∨ x ∈ t.bucks.flatten := by
    intro x
    rw [P.mem_iff, List.mem_cons]
  refine ⟨?_, ?_, ?_, ?_, ?_, ?_, ?_, ?_, ?_, ?_⟩
  · rw [hbeq, List.length_set]
    exact hlen
  · show (bloom_set t.bitvect (jhash k 0)).length = 32
    rw [bloom_set_length]
    exact hbv
  · exact hpos
  · show t.count + 1 = (iterAll (htable_add t ⟨n, [], 0, 0⟩ k)).length
    have hl := P.length_eq
    simp only [List.length_cons] at hl
    simp only [iterAll]
    omega
  · intro x hx
    simp only [iterAll] at hx
    rcases (hmem x).mp hx with rfl | hold
    · exact bloom_set_test_self _ _ (by omega)
    · exact bloom_set_mono _ _ _ (hbloom x hold)
  · intro i hi x hx
    rw [hbeq, List.length_set] at hi
    show i = jhash x.key 0 &&& (t.size - 1)
    by_cases hij : i = htable_which_bucket t (jhash k 0)
    · subst hij
      rw [hbeq, getD_set_self _ _ _ _ hj] at hx
      rcases List.mem_cons.mp hx with rfl | hx'
      · rfl
      · exact hplace _ hj x hx'
    · rw [hbeq, getD_set_ne _ _ _ _ _ (fun hc => hij hc.symm)] at hx
      exact hplace i hi x hx
  · intro x hx
    simp only [iterAll] at hx
    rcases (hmem x).mp hx with rfl | hold
    · rfl
    · exact hlenkey x hold
  · intro b hb
    rw [hbeq] at hb
    rcases List.mem_or_eq_of_mem_set hb with hold | rfl
    · exact hsorted b hold
    · refine List.pairwise_cons.mpr ⟨?_, ?_⟩
      · intro x hx
        exact htick x (chain_mem_iterAll t _ hj x hx)
      · refine hsorted _ ?_
        rw [getD_bucks t _ hj]
        exact List.getElem_mem hj
  · intro x hx
    show x.eid < n + 1
    simp only [iterAll] at hx
    rcases (hmem x).mp hx with rfl | hold
    · exact Nat.lt_succ_self n
    · have := htick x hold
      omega
  · have PM := P.map (fun e => e.eid)
    simp only [iterAll]
    refine (PM.nodup_iff).mpr ?_
    simp only [List.map_cons]
    refine List.nodup_cons.mpr ⟨?_, hnodup⟩
    intro hc
    obtain ⟨x, hx, hxe⟩ := List.mem_map.mp hc
    have := htick x hx
    omega

theorem inv_del (t : Htable) (n : Nat) (k : List Nat) (inv : SysInv ⟨t, n⟩) :
    SysInv ⟨(htable_del_key t k).2, n⟩ := by
  obtain ⟨hlen, hbv, hpos, hcount, hbloom, hplace, hlenkey, hsorted, htick, hnodup⟩ := inv
  dsimp only at hlen hbv hpos hcount hbloom hplace hlenkey hsorted htick hnodup
  cases hfind : htable_find t k with
  | none =>
      have ht2 : (htable_del_key t k).2 = t := by
        simp [htable_del_key, hfind]
      rw [ht2]
      exact ⟨hlen, hbv, hpos, hcount, hbloom, hplace, hlenkey, hsorted, htick, hnodup⟩
  | some e =>
      simp only [iterAll] at hcount hbloom hlenkey htick hnodup
      have hj : htable_which_bucket t (jhash k 0) < t.bucks.length :=
        bucket_lt t hpos hlen (jhash k 0)
      have hfind' := find_some_elim t k e hfind
      have ht2 : (htable_del_key t k).2
          = { bucks := t.bucks.set (htable_which_bucket t (jhash k 0))
                ((t.bucks.getD (htable_which_bucket t (jhash k 0)) []).eraseP
                  (fun x => matchKey x k)),
              size := t.size, count := t.count - 1, bitvect := t.bitvect } := by
        simp [htable_del_key, hfind]
      have Pch := cons_eraseP_perm (fun x => matchKey x k)
        (t.bucks.getD (htable_which_bucket t (jhash k 0)) []) e hfind'
      have P : (e :: (t.bucks.set (htable_which_bucket t (jhash k 0))
          ((t.bucks.getD (htable_which_bucket t (jhash k 0)) []).eraseP
            (fun x => matchKey x k))).flatten).Perm t.bucks.flatten :=
        flatten_set_perm_of t.bucks _ _ e Pch
      rw [ht2]
      refine ⟨?_, ?_, ?_, ?_, ?_, ?_, ?_, ?_, ?_, ?_⟩
      · simpa using hlen
      · exact hbv
      · exact hpos
      · show t.count - 1 = _
        have hl := P.length_eq
        simp only [List.length_cons, iterAll] at hl ⊢
        omega
      · intro x hx
        simp only [iterAll] at hx
        exact hbloom x (P.subset (List.mem_cons_of_mem e hx))
      · intro i hi x hx
        simp only [List.length_set] at hi
        show i = jhash x.key 0 &&& (t.size - 1)
        by_cases hij : i = htable_which_bucket t (jhash k 0)
        · subst hij
          rw [getD_set_self _ _ _ _ hj] at hx
          exact hplace _ hj x ((List.eraseP_sublist _).mem hx)
        · rw [getD_set_ne _ _ _ _ _ (fun hc => hij hc.symm)] at hx
          exact hplace i hi x hx
      · intro x hx
        simp only [iterAll] at hx
        exact hlenkey x (P.subset (List.mem_cons_of_mem e hx))
      · intro b hb
        rcases List.mem_or_eq_of_mem_set hb with hold | rfl
        · exact hsorted b hold
        · refine (hsorted _ ?_).sublist (List.eraseP_sublist _)
          rw [getD_bucks t _ hj]
          exact List.getElem_mem hj
      · intro x hx
        simp only [iterAll] at hx
        exact htick x (P.subset (List.mem_cons_of_mem e hx))
      · have PM := P.map (fun e => e.eid)
        simp only [iterAll]
        have : (List.map (fun e => e.eid) (e :: (t.bucks.set
            (htable_which_bucket t (jhash k 0))
            ((t.bucks.getD (htable_which_bucket t (jhash k 0)) []).eraseP
              (fun x => matchKey x k))).flatten)).Nodup :=
          (PM.nodup_iff).mpr hnodup
        simp only [List.map_cons] at this
        exact (List.nodup_cons.mp this).2

theorem inv_step (s : Sys) (op : Op) (inv : SysInv s) : SysInv (stepOp s op) := by
  cases op with
  | add k => exact inv_add s.tab s.tick k inv
  | del k => exact inv_del s.tab s.tick k inv
  | find k => exact inv

theorem inv_of_reached (s : Sys) (h : Reached s) : SysInv s := by
  induction h with
  | base =>
      exact inv_fresh htable_init_table HASH_NUM_BUCKETS (by decide) rfl rfl rfl rfl
  | baseN n =>
      refine inv_fresh (htable_init_n_table n) (if n > 0 then n else HASH_BUCKET_THRESH)
        ?_ rfl rfl rfl rfl
      unfold HASH_BUCKET_THRESH
      split <;> omega
  | step s op hr ih => exact inv_step s op ih

/-! ## Characterizing `htable_find` on reachable tables -/

theorem matchKey_true_iff (e : HEntry) (k : List Nat) :
    matchKey e k = true ↔ e.len = k.length ∧ e.key = k := by
  simp [matchKey]

theorem mem_bucket_of_match (t : Htable) (n : Nat) (inv : SysInv ⟨t, n⟩) (k : List Nat)
    (e : HEntry) (he : e ∈ iterAll t) (hm : matchKey e k = true) :
    e ∈ t.bucks.getD (htable_which_bucket t (jhash k 0)) [] := by
  obtain ⟨b, hb, heb⟩ := List.mem_flatten.mp he
  obtain ⟨i, hi, rfl⟩ := List.getElem_of_mem hb
  have hkey : e.key = k := ((matchKey_true_iff e k).mp hm).2
  have hpl := inv.hplace i hi e (by rw [getD_bucks t i hi]; exact heb)
  have hij : i = htable_which_bucket t (jhash k 0) := by
    rw [hpl, hkey]
    rfl
  rw [← hij, getD_bucks t i hi]
  exact heb

theorem bloom_false_absent (t : Htable) (n : Nat) (inv : SysInv ⟨t, n⟩) (k : List Nat)
    (hbf : bloom_test t.bitvect (jhash k 0) = false) :
    ∀ e ∈ iterAll t, matchKey e k = false := by
  intro e he
  by_contra hm
  rw [Bool.not_eq_false] at hm
  have hkey : e.key = k := ((matchKey_true_iff e k).mp hm).2
  have hbt := inv.hbloom e he
  rw [hkey] at hbt
  rw [hbt] at hbf
  simp at hbf

theorem find_none_iff (t : Htable) (n : Nat) (inv : SysInv ⟨t, n⟩) (k : List Nat) :
    htable_find t k = none ↔ ∀ e ∈ iterAll t, matchKey e k = false := by
  constructor
  · intro hn e he
    by_contra hm
    rw [Bool.not_eq_false] at hm
    have hkey : e.key = k := ((matchKey_true_iff e k).mp hm).2
    have hbl : bloom_test t.bitvect (jhash k 0) = true := by
      have hbt := inv.hbloom e he
      rwa [hkey] at hbt
    have hchain : e ∈ t.bucks.getD (htable_which_bucket t (jhash k 0)) [] :=
      mem_bucket_of_match t n inv k e he hm
    simp only [htable_find, hbl, if_true] at hn
    split at hn
    · rename_i hE
      rw [List.isEmpty_iff.mp hE] at hchain
      simp at hchain
    · rw [List.find?_eq_none] at hn
      exact absurd hm (by simpa using hn e hchain)
  · intro hall
    simp only [htable_find]
    by_cases hbl : bloom_test t.bitvect (jhash k 0)
    · rw [if_pos hbl]
      by_cases hE : (t.bucks.getD (htable_which_bucket t (jhash k 0)) []).isEmpty
      · rw [if_pos hE]
      · rw [if_neg hE, List.find?_eq_none]
        intro x hx
        have hxi : x ∈ iterAll t :=
          chain_mem_iterAll t _ (bucket_lt t inv.hpos inv.hlen _) x hx
        simp only [Bool.not_eq_true]
        exact hall x hxi
    · rw [if_neg hbl]

theorem find_some_spec (t : Htable) (n : Nat) (inv : SysInv ⟨t, n⟩) (k : List Nat)
    (e : HEntry) (h : htable_find t k = some e) :
    e ∈ iterAll t ∧ matchKey e k = true ∧
      ∀ x ∈ iterAll t, matchKey x k = true → x.eid ≤ e.eid := by
  have hfind' := find_some_elim t k e h
  have hj := bucket_lt t inv.hpos inv.hlen (jhash k 0)
  have hme : e ∈ t.bucks.getD (htable_which_bucket t (jhash k 0)) [] :=
    List.mem_of_find?_eq_some hfind'
  have hpe : matchKey e k = true := by simpa using List.find?_some hfind'
  have heiter : e ∈ iterAll t := chain_mem_iterAll t _ hj e hme
  refine ⟨heiter, hpe, ?_⟩
  intro x hx hmx
  have hxchain : x ∈ t.bucks.getD (htable_which_bucket t (jhash k 0)) [] :=
    mem_bucket_of_match t n inv k x hx hmx
  have hpair : List.Pairwise (fun a c => c.eid < a.eid)
      (t.bucks.getD (htable_which_bucket t (jhash k 0)) []) := by
    rw [getD_bucks t _ hj]
    exact inv.hsorted _ (List.getElem_mem hj)
  rcases find?_pairwise_first _ _ _ e hpair hfind' x hxchain (by simpa using hmx)
    with rfl | hlt
  · exact le_refl _
  · exact Nat.le_of_lt hlt

theorem find_eq_plain (t : Htable) (n : Nat) (inv : SysInv ⟨t, n⟩) (k : List Nat) :
    htable_find t k = findPlainScan t k := by
  by_cases hbl : bloom_test t.bitvect (jhash k 0)
  · simp only [htable_find, findPlainScan, hbl, if_true]
    by_cases hE : (t.bucks.getD (htable_which_bucket t (jhash k 0)) []).isEmpty
    · rw [if_pos hE, List.isEmpty_iff.mp hE]
      rfl
    · rw [if_neg hE]
  · have hbf : bloom_test t.bitvect (jhash k 0) = false := by
      rwa [Bool.not_eq_true] at hbl
    have habs := bloom_false_absent t n inv k hbf
    simp only [htable_find, hbf, Bool.false_eq_true, if_false, findPlainScan]
    symm
    rw [List.find?_eq_none]
    intro x hx
    have hxi : x ∈ iterAll t :=
      chain_mem_iterAll t _ (bucket_lt t inv.hpos inv.hlen _) x hx
    simp only [Bool.not_eq_true]
    exact habs x hxi

/-! ## Iteration and sequence-preservation helpers -/

theorem range_flatMap_getD {α : Type} (L : List (List α)) :
    (List.range L.length).flatMap (fun i => L.getD i []) = L.flatten := by
  induction L with
  | nil => rfl
  | cons b rest ih =>
      rw [List.length_cons, List.range_succ_eq_map]
      simp only [List.flatMap_cons, List.getD_cons_zero, List.flatten_cons]
      have hmap : (List.map (fun i => i + 1) (List.range rest.length)).flatMap
          (fun i => (b :: rest).getD i [])
          = (List.range rest.length).flatMap (fun i => rest.getD i []) := by
        rw [List.flatMap_map]
        simp only [List.getD_cons_succ]
      rw [hmap, ih]

theorem bloom_step_mono (s : Sys) (op : Op) (h : Nat)
    (ht : bloom_test s.tab.bitvect h = true) :
    bloom_test (stepOp s op).tab.bitvect h = true := by
  cases op with
  | add k => exact bloom_set_mono _ _ _ ht
  | find k => exact ht
  | del k =>
      show bloom_test (htable_del_key s.tab k).2.bitvect h = true
      cases hf : htable_find s.tab k with
      | none =>
          simp only [htable_del_key, hf]
          exact ht
      | some e =>
          simp only [htable_del_key, hf]
          exact ht

theorem bloom_runOps_mono (s : Sys) (ops : List Op) (h : Nat)
    (ht : bloom_test s.tab.bitvect h = true) :
    bloom_test (runOps s ops).tab.bitvect h = true := by
  induction ops generalizing s with
  | nil => exact ht
  | cons op rest ih =>
      show bloom_test (runOps (stepOp s op) rest).tab.bitvect h = true
      exact ih (stepOp s op) (bloom_step_mono s op h ht)

/-! ## The claims -/

/-- C1: for every table whose bucket count is a power of two, every unlinked
entry `e` and key `k`, immediately after `htable_add(table, e, k, len)` a
`htable_find(table, k, len)` returns exactly the inserted entry; and on every
reachable table, whenever `htable_find` returns an entry it is a linked,
key-matching entry whose `eid` (insertion timestamp) is maximal among all
linked entries with that key — the most recently inserted surviving one. -/
theorem htable_add_then_find_and_duplicate_recency :
    (∀ (t : Htable) (e : HEntry) (k : List Nat), HtableWF t →
      (∃ m, t.size = 2 ^ m) → Unlinked e t →
      htable_find (htable_add t e k) k = some (INIT_HTABLE_ENTRY e k)) ∧
    (∀ (s : Sys) (k : List Nat) (e : HEntry), Reached s →
      htable_find s.tab k = some e →
      e ∈ iterAll s.tab ∧ matchKey e k = true ∧
        ∀ x ∈ iterAll s.tab, matchKey x k = true → x.eid ≤ e.eid) := by
  constructor
  · rintro t e k ⟨hlen, hbv, hpos⟩ _hpow _hunlinked
    have hj : htable_which_bucket t (jhash k 0) < t.bucks.length :=
      bucket_lt t hpos hlen _
    have hbl : bloom_test (htable_add t e k).bitvect (jhash k 0) = true := by
      show bloom_test (bloom_set t.bitvect (jhash k 0)) (jhash k 0) = true
      exact bloom_set_test_self _ _ (by omega)
    simp only [htable_find, hbl, if_true]
    have hchain : (htable_add t e k).bucks.getD
        (htable_which_bucket (htable_add t e k) (jhash k 0)) []
        = INIT_HTABLE_ENTRY e k
          :: t.bucks.getD (htable_which_bucket t (jhash k 0)) [] := by
      show (t.bucks.set (htable_which_bucket t (jhash k 0))
          (INIT_HTABLE_ENTRY e k
            :: t.bucks.getD (htable_which_bucket t (jhash k 0)) [])).getD
          (htable_which_bucket t (jhash k 0)) [] = _
      exact getD_set_self _ _ _ _ hj
    rw [hchain]
    have hm : matchKey (INIT_HTABLE_ENTRY e k) k = true := by
      simp [INIT_HTABLE_ENTRY, matchKey]
    simp [List.find?_cons, hm]
  · intro s k e hr hf
    exact find_some_spec s.tab s.tick (inv_of_reached s hr) k e hf

/-- C1 witness: a concrete round trip on the default 16-bucket table, and a
concrete application of the recency property after one insertion. -/
theorem htable_add_then_find_and_duplicate_recency_witness :
    htable_find (htable_add htable_init_table ⟨5, [9], 1, 7⟩ [1, 2]) [1, 2]
      = some ⟨5, [1, 2], 2, 7⟩ ∧
    (⟨0, [3], 1, 0⟩ : HEntry) ∈ iterAll (stepOp initSys (Op.add [3])).tab := by
  constructor
  · exact htable_add_then_find_and_duplicate_recency.1 htable_init_table
      ⟨5, [9], 1, 7⟩ [1, 2] ⟨by decide, by decide, by decide⟩ ⟨4, rfl⟩
      (by unfold Unlinked; decide)
  · exact (htable_add_then_find_and_duplicate_recency.2
      (stepOp initSys (Op.add [3])) [3] ⟨0, [3], 1, 0⟩
      (Reached.step _ _ Reached.base) (by decide)).1

/-- C2: on every reachable table, the bloom-gated lookup returns exactly what
a plain scan of bucket `hash(k) & (size-1)` returns; and when the bloom test
for `hash(k)` is false, no linked entry matches `k`, so skipping the scan is
sound. -/
theorem htable_find_eq_plain_scan_of_reached :
    ∀ (s : Sys) (k : List Nat), Reached s →
      htable_find s.tab k = findPlainScan s.tab k ∧
      (bloom_test s.tab.bitvect (jhash k 0) = false →
        ∀ e ∈ iterAll s.tab, matchKey e k = false) := by
  intro s k hr
  have inv := inv_of_reached s hr
  exact ⟨find_eq_plain s.tab s.tick inv k,
    fun hbf => bloom_false_absent s.tab s.tick inv k hbf⟩

/-- C2 witness: concrete instance on the freshly initialized table. -/
theorem htable_find_eq_plain_scan_of_reached_witness :
    htable_find initSys.tab [2, 3] = findPlainScan initSys.tab [2, 3] :=
  (htable_find_eq_plain_scan_of_reached initSys [2, 3] Reached.base).1

/-- C3: once `htable_add` has been called for a key `k` (so the bloom bit of
`jhash(k, len, 0)` is set), `bloom_test` on that hash returns true after every
subsequent sequence of insert/find/delete operations — bloom bits are set on
insertion and never cleared, including by deletions. -/
theorem bloom_bit_persists_forever :
    ∀ (s : Sys) (k : List Nat) (ops : List Op), Reached s →
      bloom_test (runOps (stepOp s (Op.add k)) ops).tab.bitvect (jhash k 0) = true := by
  intro s k ops hr
  have inv := inv_of_reached s hr
  have h1 : bloom_test (stepOp s (Op.add k)).tab.bitvect (jhash k 0) = true := by
    show bloom_test (bloom_set s.tab.bitvect (jhash k 0)) (jhash k 0) = true
    have := inv.hbv
    exact bloom_set_test_self _ _ (by omega)
  exact bloom_runOps_mono _ ops _ h1

/-- C3 witness: insert key `[2]`, then delete it; the bloom bit for its hash
is still set. -/
theorem bloom_bit_persists_forever_witness :
    bloom_test (runOps (stepOp initSys (Op.add [2])) [Op.del [2]]).tab.bitvect
      (jhash [2] 0) = true :=
  bloom_bit_persists_forever initSys [2] [Op.del [2]] Reached.base

/-- C4: on every reachable table, `count` equals the number of entries
reachable by iterating all buckets (the sum of per-bucket chain lengths);
`htable_add` increments `count` by exactly one, and a successful
`htable_del_key` decrements it by exactly one. -/
theorem count_matches_iteration :
    ∀ s : Sys, Reached s →
      (s.tab.count = (iterAll s.tab).length ∧
        (iterAll s.tab).length = (s.tab.bucks.map List.length).sum) ∧
      (∀ (e : HEntry) (k : List Nat),
        (htable_add s.tab e k).count = s.tab.count + 1) ∧
      (∀ (k : List Nat) (e : HEntry), (htable_del_key s.tab k).1 = some e →
        (htable_del_key s.tab k).2.count + 1 = s.tab.count) := by
  intro s hr
  have inv := inv_of_reached s hr
  refine ⟨⟨inv.hcount, ?_⟩, ?_, ?_⟩
  · show (s.tab.bucks.flatten).length = _
    exact List.length_flatten _
  · intro e k
    rfl
  · intro k e h1
    cases hf : htable_find s.tab k with
    | none => simp [htable_del_key, hf] at h1
    | some e2 =>
        have hsome := find_some_spec s.tab s.tick inv k e2 hf
        have hpos1 : 0 < (iterAll s.tab).length := List.length_pos_of_mem hsome.1
        have hc2 : (htable_del_key s.tab k).2.count = s.tab.count - 1 := by
          simp [htable_del_key, hf]
        have hc := inv.hcount
        omega

/-- C4 witness: the count invariant on the freshly initialized table. -/
theorem count_matches_iteration_witness :
    initSys.tab.count = (iterAll initSys.tab).length :=
  (count_matches_iteration initSys Reached.base).1.1

/-- C6: deleting a key that matches no linked entry of a reachable table
returns `NULL` and leaves the table — count, every bucket chain, and the
bloom vector — unchanged. -/
theorem del_absent_key_noop :
    ∀ (s : Sys) (k : List Nat), Reached s →
      (∀ e ∈ iterAll s.tab, matchKey e k = false) →
      htable_del_key s.tab k = (none, s.tab) := by
  intro s k hr hall
  have inv := inv_of_reached s hr
  have hf : htable_find s.tab k = none := (find_none_iff s.tab s.tick inv k).mpr hall
  simp [htable_del_key, hf]

/-- C6 witness: deleting key `[7]` from the empty default table. -/
theorem del_absent_key_noop_witness :
    htable_del_key htable_init_table [7] = (none, htable_init_table) :=
  del_absent_key_noop initSys [7] Reached.base (by decide)

/-- C7: `htable_del_entry(table, entry)` returns exactly
`htable_del_key(table, entry->key, entry->len)` — deletion is by key, never
by pointer identity — and with duplicate keys it can remove a different
entry than the one handed in: after inserting two entries with key `[1]`,
deleting "by" the older entry removes the newer one. -/
theorem del_entry_delegates_to_del_key :
    (∀ (t : Htable) (e : HEntry), htable_del_entry t e = htable_del_key t e.key) ∧
    (∃ (s : Sys) (e d : HEntry), Reached s ∧ e ∈ iterAll s.tab ∧ d ∈ iterAll s.tab ∧
      d.key = e.key ∧ d ≠ e ∧ (htable_del_entry s.tab e).1 = some d) := by
  constructor
  · intro t e
    rfl
  · refine ⟨stepOp (stepOp initSys (Op.add [1])) (Op.add [1]),
      ⟨0, [1], 1, 0⟩, ⟨1, [1], 1, 0⟩,
      Reached.step _ _ (Reached.step _ _ Reached.base), ?_, ?_, ?_, ?_, ?_⟩
    · decide
    · decide
    · decide
    · decide
    · decide

/-- C5 evidence: `htable_add` links `INIT_HTABLE_ENTRY(entry, key, len)` into
the bucket, and `INIT_HTABLE_ENTRY` leaves the `hash` field exactly as it
was — the locally computed `jhash(key, len, 0)` is never stored in the entry.
At the concrete failing input, the linked entry's `hash` field (0) differs
from the hash of its key. -/
theorem entry_hash_field_never_written :
    (∀ (e : HEntry) (k : List Nat), (INIT_HTABLE_ENTRY e k).hash = e.hash) ∧
    (∀ (t : Htable) (e : HEntry) (k : List Nat),
      (htable_add t e k).bucks
        = t.bucks.set (htable_which_bucket t (jhash k 0))
            (INIT_HTABLE_ENTRY e k
              :: t.bucks.getD (htable_which_bucket t (jhash k 0)) [])) ∧
    (INIT_HTABLE_ENTRY ⟨0, [], 0, 0⟩ [1]).hash ≠ jhash [1] 0 := by
  refine ⟨fun e k => rfl, fun t e k => rfl, ?_⟩
  decide

/-- C9: both initialization operations return `-1` on a null table reference
without initializing anything, and `0` on a non-null one. -/
theorem init_null_table_fails :
    htable_init none = (-1, none) ∧
    (∀ n, htable_init_n none n = (-1, none)) ∧
    (∀ t, (htable_init (some t)).1 = 0) ∧
    (∀ t n, (htable_init_n (some t) n).1 = 0) :=
  ⟨rfl, fun _ => rfl, fun _ => rfl, fun _ _ => rfl⟩

/-- C10: `htable_init_n` with size hint `0` sets the bucket count to
`HASH_BUCKET_THRESH = 10` (not the default 16); 10 is not a power of two, and
under the mask-based addressing `hash & (size-1)` the bucket index 2 (< 10)
is never produced, so the addressing reaches only a proper subset of the
buckets. -/
theorem init_n_zero_sets_thresh_buckets :
    (htable_init_n_table 0).size = HASH_BUCKET_THRESH ∧
    HASH_BUCKET_THRESH = 10 ∧
    htable_init_table.size = 16 ∧
    (∀ m : Nat, (10 : Nat) ≠ 2 ^ m) ∧
    2 < (htable_init_n_table 0).size ∧
    (∀ h : Nat, htable_which_bucket (htable_init_n_table 0) h ≠ 2) := by
  refine ⟨rfl, rfl, rfl, ?_, by decide, ?_⟩
  · intro m hm
    rcases Nat.lt_or_ge m 4 with h4 | h4
    · interval_cases m <;> norm_num at hm
    · have h16 : (16 : Nat) ≤ 2 ^ m := by
        calc (16 : Nat) = 2 ^ 4 := by norm_num
          _ ≤ 2 ^ m := Nat.pow_le_pow_right (by norm_num) h4
      omega
  · intro h hc
    have hc9 : h &&& 9 = 2 := hc
    have hbit := congrArg (fun x => Nat.testBit x 1) hc9
    simp only [Nat.testBit_and] at hbit
    have h9 : (9 : Nat).testBit 1 = false := by decide
    rw [h9, Bool.and_false] at hbit
    have h2t : (2 : Nat).testBit 1 = true := by decide
    rw [h2t] at hbit
    simp at hbit

/-- C8: on every reachable table (pure traversal, no mutation), the
`htable_for_each` loop — buckets in index order `0..size-1`, each chain from
its head — yields exactly the concatenation of all bucket chains: its length
is `count`, it visits every linked entry exactly once, and within each bucket
the chain is strictly decreasing in insertion timestamp (most recently
inserted first). -/
theorem for_each_visits_all_once_in_order :
    ∀ s : Sys, Reached s →
      htable_for_each s.tab = iterAll s.tab ∧
      (htable_for_each s.tab).length = s.tab.count ∧
      (∀ e ∈ iterAll s.tab, (htable_for_each s.tab).count e = 1) ∧
      (∀ b ∈ s.tab.bucks, List.Pairwise (fun a c => c.eid < a.eid) b) := by
  intro s hr
  have inv := inv_of_reached s hr
  have hfe : htable_for_each s.tab = iterAll s.tab := by
    show (List.range s.tab.size).flatMap (fun i => s.tab.bucks.getD i [])
      = s.tab.bucks.flatten
    rw [← inv.hlen]
    exact range_flatMap_getD s.tab.bucks
  refine ⟨hfe, ?_, ?_, inv.hsorted⟩
  · rw [hfe, ← inv.hcount]
  · intro e he
    rw [hfe]
    have hnd : (iterAll s.tab).Nodup := inv.hnodup.of_map _
    exact List.count_eq_one_of_mem hnd he

/-- C8 witness: concrete instance after one insertion into the default
table. -/
theorem for_each_visits_all_once_in_order_witness :
    htable_for_each (stepOp initSys (Op.add [4])).tab
      = iterAll (stepOp initSys (Op.add [4])).tab :=
  (for_each_visits_all_once_in_order (stepOp initSys (Op.add [4]))
    (Reached.step _ _ Reached.base)).1
